import Mathlib

/-!
Verification development for the `gfalace` block-lacing tool (`src/main.rs`).

The program merges per-block GFA graphs into one combined graph:
it translates node ids by the running node count, extracts genomic
ranges from path names of the form `sample#haplotype#contig:start-end`,
groups ranges per locus key, reconciles them (one merged path when all
sorted adjacent ranges are contiguous, otherwise greedy contiguous
groups), re-derives step edges with a `has_edge` guard, and serializes
nodes/links/paths sorted by id, (from,to) id pair, and raw name bytes.

The definitions below are a shallow embedding of that source.  Strings
are modelled as `List Char` (Rust `&str` split/format operate on
chars/bytes; all relevant text is ASCII).  Rust `usize` values are `Nat`
with an explicit `% 2 ^ 64` where wrap-around matters (the gap
diagnostic; release-profile wrapping semantics).  The external
`handlegraph` store is modelled at its interface: `create_edge` appends,
`has_edge` is exact membership of the ordered oriented pair, hash-map
iteration order is an explicit parameter of the serializer model.
-/

namespace Gfalace

/-- An oriented node reference, `handlegraph::handle::Handle`:
node id plus strand flag (`is_reverse`). -/
structure Handle where
  id : Nat
  is_reverse : Bool
deriving DecidableEq

/-- `struct RangeInfo` from `main.rs`: one block's contribution to a locus. -/
structure RangeInfo where
  start : Nat
  «end» : Nat
  gfa_id : Nat
  steps : List Handle
deriving DecidableEq

/-- `fn is_contiguous(r1, r2) -> bool { r1.end == r2.start }`. -/
def is_contiguous (r1 r2 : RangeInfo) : Bool :=
  r1.«end» == r2.start

/-- `fn has_overlap(r1, r2) -> bool { r1.start < r2.end && r2.start < r1.end }`. -/
def has_overlap (r1 r2 : RangeInfo) : Bool :=
  decide (r1.start < r2.«end») && decide (r2.start < r1.«end»)

/-- Sort key relation of `ranges.sort_by_key(|r| (r.start, r.end))`:
lexicographic order on the `(start, end)` pair. -/
def rangeLE (a b : RangeInfo) : Prop :=
  a.start < b.start ∨ (a.start = b.start ∧ a.«end» ≤ b.«end»)

instance : DecidableRel rangeLE := fun a b =>
  inferInstanceAs (Decidable (a.start < b.start ∨ (a.start = b.start ∧ a.«end» ≤ b.«end»)))

/-- `ranges.sort_by_key(|r| (r.start, r.end))`; Rust `sort_by_key` is a
stable sort, as is `List.insertionSort`. -/
def sortRanges (ranges : List RangeInfo) : List RangeInfo :=
  List.insertionSort rangeLE ranges

/-- The `has_overlaps` flag computed over `ranges.windows(2)`. -/
def hasOverlaps : List RangeInfo → Bool
  | r1 :: r2 :: rest => has_overlap r1 r2 || hasOverlaps (r2 :: rest)
  | _ => false

/-- The `all_contiguous` flag computed over `ranges.windows(2)`. -/
def allContiguous : List RangeInfo → Bool
  | r1 :: r2 :: rest => is_contiguous r1 r2 && allContiguous (r2 :: rest)
  | _ => true

/-- The inner grouping walk of the non-contiguous branch
(`while next_idx < ranges.len() && is_contiguous(&ranges[next_idx-1], &ranges[next_idx])`):
`prev` is the previously consumed range, `cur` the current group so far. -/
def groupAux (prev : RangeInfo) (cur : List RangeInfo) : List RangeInfo → List (List RangeInfo)
  | [] => [cur]
  | r :: rest =>
    if is_contiguous prev r then groupAux r (cur ++ [r]) rest
    else cur :: groupAux r [r] rest

/-- Greedy partition of the sorted ranges into contiguous groups
(the outer `while current_range_idx < ranges.len()` loop). -/
def groupRanges : List RangeInfo → List (List RangeInfo)
  | [] => []
  | r :: rest => groupAux r [r] rest

/-- The boundary condition between two consecutive output groups of one
locus: the last range of the earlier group is not contiguous with the
first range of the later one (the walk broke there). -/
def groupBreak (g₁ g₂ : List RangeInfo) : Prop :=
  ∀ a b, g₁.getLast? = some a → g₂.head? = some b → is_contiguous a b = false

/-- Decimal digit character. -/
def digitChar : Nat → Char
  | 0 => '0' | 1 => '1' | 2 => '2' | 3 => '3' | 4 => '4'
  | 5 => '5' | 6 => '6' | 7 => '7' | 8 => '8' | _ => '9'

/-- Decimal rendering of a natural number, fuel-driven. -/
def natToCharsAux : Nat → Nat → List Char
  | 0, _ => []
  | fuel + 1, n =>
    if n < 10 then [digitChar n]
    else natToCharsAux fuel (n / 10) ++ [digitChar (n % 10)]

/-- Decimal rendering of a natural number (`format!("{}", n)`). -/
def natToChars (n : Nat) : List Char :=
  natToCharsAux (n + 1) n

/-- `format!("{}:{}-{}", path_key, start_range.start, end_range.end)`:
the name of one contiguous group (`start_range` is the first range of the
group, `end_range` the last one merged). -/
def groupName (key : List Char) (g : List RangeInfo) : List Char :=
  match g with
  | [] => key
  | r :: rs =>
    key ++ ':' :: natToChars r.start ++ '-' :: natToChars (List.getLastD rs r).«end»

/-- The step sequence of one group: concatenation of its ranges' steps
(`steps.extend(ranges[next_idx].steps.clone())`). -/
def groupSteps (g : List RangeInfo) : List Handle :=
  (g.map RangeInfo.steps).flatten

/-- Per-locus reconciliation (lines 203-309 of `main.rs`): sort, classify,
then either one merged path named by the bare key, or one path per greedy
contiguous group named `key:group_start-group_end`.  Output: the list of
`(path name, step sequence)` pairs created in the combined graph, in
creation order. -/
def reconcileLocus (key : List Char) (ranges : List RangeInfo) :
    List (List Char × List Handle) :=
  let sorted := sortRanges ranges
  if allContiguous sorted && !hasOverlaps sorted then
    [(key, (sorted.map RangeInfo.steps).flatten)]
  else
    (groupRanges sorted).map (fun g => (groupName key g, groupSteps g))

/-! ### Range Extractor: `split_path_name` -/

/-- Rust `str::split(c)`: split a character list at every occurrence of
`c`; `"".split(c)` yields one empty field. -/
def splitChar (c : Char) : List Char → List (List Char)
  | [] => [[]]
  | x :: xs =>
    if x = c then [] :: splitChar c xs
    else
      match splitChar c xs with
      | [] => [[x]]
      | y :: ys => (x :: y) :: ys

/-- Decimal digit value of a character, if any. -/
def digitVal (c : Char) : Option Nat :=
  if '0' ≤ c ∧ c ≤ '9' then some (c.toNat - '0'.toNat) else none

/-- Digit-accumulation loop of Rust `usize::from_str`: fails on a
non-digit character and on overflow past `2 ^ 64`. -/
def parseDigits (acc : Nat) : List Char → Option Nat
  | [] => some acc
  | c :: rest =>
    match digitVal c with
    | none => none
    | some d =>
      if acc * 10 + d < 2 ^ 64 then parseDigits (acc * 10 + d) rest else none

/-- Rust `"…".parse::<usize>()`: optional leading `'+'`, then a nonempty
run of decimal digits; `'-'` and every other character are invalid. -/
def parse_usize (s : List Char) : Option Nat :=
  match s with
  | [] => none
  | '+' :: rest => if rest = [] then none else parseDigits 0 rest
  | _ => parseDigits 0 s

/-- `fn split_path_name(path_name) -> Option<(String, usize, usize)>`:
require exactly three `#` fields, exactly one `:` in the last field,
exactly one `-` right of the `:`, numeric bounds; on success the key is
`parts[0]#parts[1]#name`. -/
def split_path_name (path_name : List Char) : Option (List Char × Nat × Nat) :=
  match splitChar '#' path_name with
  | [p0, p1, p2] =>
    match splitChar ':' p2 with
    | [name, rng] =>
      match splitChar '-' rng with
      | [r0, r1] => do
        let s ← parse_usize r0
        let e ← parse_usize r1
        some (p0 ++ '#' :: p1 ++ '#' :: name, s, e)
      | _ => none
    | _ => none
  | _ => none

/-- The malformed-name conditions enumerated by the specification: wrong
number of `#` fields, not exactly one `:` in the last field, not exactly
one `-` after the `:`, or non-numeric bounds. -/
def malformedName (s : List Char) : Bool :=
  match splitChar '#' s with
  | [_, _, p2] =>
    match splitChar ':' p2 with
    | [_, rng] =>
      match splitChar '-' rng with
      | [r0, r1] => (parse_usize r0).isNone || (parse_usize r1).isNone
      | _ => true
    | _ => true
  | _ => true

/-- Node-id translation `id_translation + id` applied to one oriented
step (`Handle::pack(id_translation + step.id().into(), step.is_reverse())`). -/
def translateHandle (offset : Nat) (h : Handle) : Handle :=
  ⟨offset + h.id, h.is_reverse⟩

/-- The path-collection loop of `main` (lines 175-199): for each named
path of a block, `split_path_name` either yields `(key, start, end)` — in
which case a `RangeInfo` with the translated steps is recorded under the
key — or `None`, in which case the path is skipped. -/
def collectRanges (gfa_id offset : Nat) :
    List (List Char × List Handle) → List (List Char × RangeInfo)
  | [] => []
  | (name, steps) :: rest =>
    match split_path_name name with
    | some (key, s, e) =>
      (key, ⟨s, e, gfa_id, steps.map (translateHandle offset)⟩) ::
        collectRanges gfa_id offset rest
    | none => collectRanges gfa_id offset rest

/-! ### Reconciler diagnostics (lines 220-254, `--debug` only) -/

/-- One `eprintln!` event of the per-locus analysis block. -/
inductive DiagEvent where
  | rangesAnalysis (key : List Char)
  | overlapWarning
  | mergedRange (start stop : Nat) (gfa_ids : List Nat)
  | gapToNext (gap : Nat)
deriving DecidableEq

/-- Rust `usize` subtraction `a - b` under the release profile: wraps
modulo `2 ^ 64` (for `a < b` the dev profile would instead panic with
an overflow check; both operands are parsed `usize` values `< 2 ^ 64`). -/
def usize_sub (a b : Nat) : Nat :=
  (a + (2 ^ 64 - b % 2 ^ 64)) % 2 ^ 64

/-- The merged-range printing loop: `prev` is `ranges[i-1]`, `cs`/`ce`
are `current_start`/`current_end`, `cids` is `current_gfa_ids`. -/
def diagLoop (prev : RangeInfo) (cs ce : Nat) (cids : List Nat) :
    List RangeInfo → List DiagEvent
  | [] => [.mergedRange cs ce cids]
  | r :: rest =>
    if is_contiguous prev r then
      diagLoop r cs r.«end» (cids ++ [r.gfa_id]) rest
    else
      .mergedRange cs ce cids :: .gapToNext (usize_sub r.start ce) ::
        diagLoop r r.start r.«end» [r.gfa_id] rest

/-- Diagnostics emitted for one locus: nothing unless
`(has_overlaps || !all_contiguous) && args.debug`; otherwise the
analysis header, the overlap warning when present, and the merged-range
walk.  A locus key always owns at least one range (`ranges[0]` would
panic otherwise); the empty case is unreachable and yields no events. -/
def reconcilerDiag (debug : Bool) (key : List Char) (ranges : List RangeInfo) :
    List DiagEvent :=
  let sorted := sortRanges ranges
  let ho := hasOverlaps sorted
  let ac := allContiguous sorted
  if (ho || !ac) && debug then
    DiagEvent.rangesAnalysis key ::
      ((if ho then [DiagEvent.overlapWarning] else []) ++
        match sorted with
        | [] => []
        | r :: rest => diagLoop r r.start r.«end» [r.gfa_id] rest)
  else []

/-! ### Path & Edge Builder -/

/-- `combined_graph.has_edge(prev, step)`, at the interface level: exact
membership of the ordered oriented pair in the edge collection. -/
def has_edge (edges : List (Handle × Handle)) (e : Handle × Handle) : Bool :=
  decide (e ∈ edges)

/-- `combined_graph.create_edge(...)`, at the interface level: appends
the ordered oriented pair (no deduplication of its own). -/
def create_edge (edges : List (Handle × Handle)) (e : Handle × Handle) :
    List (Handle × Handle) :=
  edges ++ [e]

/-- The step loop of path materialization: for each appended step, if a
previous step exists and `!has_edge(prev, step)`, `create_edge(prev, step)`. -/
def addPathEdgesAux (prev : Handle) (edges : List (Handle × Handle)) :
    List Handle → List (Handle × Handle)
  | [] => edges
  | s :: rest =>
    let edges' := if has_edge edges (prev, s) then edges else create_edge edges (prev, s)
    addPathEdgesAux s edges' rest

/-- Edge derivation over one finalized path's step list
(`prev_step` starts as `None`). -/
def addPathEdges (edges : List (Handle × Handle)) : List Handle → List (Handle × Handle)
  | [] => edges
  | s :: rest => addPathEdgesAux s edges rest

/-- The adjacent step pairs `(prev, cur)` of a step list. -/
def consecPairs : List Handle → List (Handle × Handle)
  | a :: b :: rest => (a, b) :: consecPairs (b :: rest)
  | _ => []

/-! ### ID Translator (lines 150-168) -/

/-- `combined_graph.create_handle(...)` at the node-id level: a repeated
id leaves the id set unchanged (`HashMap` insert), a fresh id extends it. -/
def addNodes (ids : List Nat) : List Nat → List Nat
  | [] => ids
  | n :: rest => addNodes (if n ∈ ids then ids else ids ++ [n]) rest

/-- The per-file fold of `main`: for each block,
`id_translation = combined_graph.node_count()` and every node id is
inserted as `id_translation + id`. -/
def foldBlocksAux (ids : List Nat) : List (List Nat) → List Nat
  | [] => ids
  | b :: rest => foldBlocksAux (addNodes ids (b.map (ids.length + ·))) rest

/-- Combined-graph node ids after folding every block in order. -/
def foldBlocks (blocks : List (List Nat)) : List Nat :=
  foldBlocksAux [] blocks

/-- Reference shape: per-block translation by running prefix sums of the
block node counts, concatenated without deduplication. -/
def translateConcat (off : Nat) : List (List Nat) → List Nat
  | [] => []
  | b :: rest => b.map (off + ·) ++ translateConcat (off + b.length) rest

/-! ### Exit behavior of `main` (lines 316-321) -/

/-- Result of `write_graph_to_gfa` as seen by `main`. -/
inductive WriteOutcome where
  | ok
  | ioError (msg : List Char)
deriving DecidableEq

/-- The final `match` of `main` plus process termination: `main` returns
`()` in both arms, so the process exit status is `0` in both; the `Err`
arm prints the cause to stderr, the `Ok` arm prints a confirmation when
`--debug` is set.  Result: `(stderr lines, exit status)`. -/
def mainExit (debug : Bool) (w : WriteOutcome) (output : List Char) :
    List (List Char) × Nat :=
  match w with
  | .ok =>
    (if debug then
        [("Successfully wrote combined graph to ".toList ++ output)]
      else [], 0)
  | .ioError e => ([("Error writing GFA file: ".toList ++ e)], 0)

/-! ### Transient decompressed copy (lines 121-147) -/

/-- Outcome of `parser.parse_file(&temp_path)` (external parser). -/
inductive ParseOutcome where
  | ok
  | parseError
deriving DecidableEq

/-- How the load of one compressed block ends. -/
inductive LoadResult where
  | loaded
  | panicked
deriving DecidableEq

/-- `let temp_path = format!("{}.tmp", gfa_path)`. -/
def tempPath (gfa_path : List Char) : List Char :=
  gfa_path ++ ".tmp".toList

/-- Loading of one `.gz` block over a file-system model (the list of
existing file paths): `File::create(&temp_path)` materializes the
decompressed copy; on parse success `std::fs::remove_file(&temp_path)`
deletes it; on parse failure `.unwrap()` panics first, so the removal
never runs.  Result: `(final file system, load result)`. -/
def loadCompressedBlock (fs : List (List Char)) (gfa_path : List Char)
    (parse : ParseOutcome) : List (List Char) × LoadResult :=
  let fs1 := if tempPath gfa_path ∈ fs then fs else fs ++ [tempPath gfa_path]
  match parse with
  | .ok => (fs1.erase (tempPath gfa_path), .loaded)
  | .parseError => (fs1, .panicked)

/-! ### Serializer: `write_graph_to_gfa` (lines 48-109)

`graph.handles()`, `graph.edges()` and `graph.path_ids()` iterate hash
containers whose order is unspecified and varies between runs; the model
therefore takes the three collections *in iteration order* as input and
applies the same stable sorts as the source. -/

/-- The combined graph's content as enumerated by one run:
nodes `(handle, sequence)`, edges, and paths `(name, steps)`,
each in hash-iteration order. -/
structure SerGraph where
  nodes : List (Handle × List Char)
  edges : List (Handle × Handle)
  paths : List (List Char × List Handle)
deriving DecidableEq

/-- `nodes.sort_by_key(|handle| handle.id())`. -/
def nodeLE (a b : Handle × List Char) : Prop :=
  a.1.id ≤ b.1.id

instance : DecidableRel nodeLE := fun a b =>
  inferInstanceAs (Decidable (a.1.id ≤ b.1.id))

/-- `edges.sort_by(|a, b| a.0.id().cmp(&b.0.id()).then(a.1.id().cmp(&b.1.id())))`:
lexicographic on the `(from id, to id)` pair, orientations ignored. -/
def edgeLE (a b : Handle × Handle) : Prop :=
  a.1.id < b.1.id ∨ (a.1.id = b.1.id ∧ a.2.id ≤ b.2.id)

instance : DecidableRel edgeLE := fun a b =>
  inferInstanceAs (Decidable (a.1.id < b.1.id ∨ (a.1.id = b.1.id ∧ a.2.id ≤ b.2.id)))

/-- Lexicographic order on raw name bytes (`Ord` on `Vec<u8>`; names are
ASCII, so byte order and scalar-value order agree). -/
def bytesLE : List Char → List Char → Bool
  | [], _ => true
  | _ :: _, [] => false
  | a :: as, b :: bs =>
    if a.toNat < b.toNat then true
    else if b.toNat < a.toNat then false
    else bytesLE as bs

/-- `paths.sort_by_key(|&path_id| name bytes)`. -/
def pathLE (a b : List Char × List Handle) : Prop :=
  bytesLE a.1 b.1 = true

instance : DecidableRel pathLE := fun a b =>
  inferInstanceAs (Decidable (bytesLE a.1 b.1 = true))

/-- `"-"` or `"+"` from `is_reverse()`. -/
def orientChar (rev : Bool) : Char :=
  if rev then '-' else '+'

/-- `writeln!(file, "S\t{}\t{}", handle.id(), sequence_str)`. -/
def segLine (n : Handle × List Char) : List Char :=
  'S' :: '\t' :: natToChars n.1.id ++ '\t' :: n.2 ++ ['\n']

/-- `writeln!(file, "L\t{}\t{}\t{}\t{}\t0M", ...)`. -/
def linkLine (e : Handle × Handle) : List Char :=
  'L' :: '\t' :: natToChars e.1.id ++ '\t' :: orientChar e.1.is_reverse ::
    '\t' :: natToChars e.2.id ++ '\t' :: orientChar e.2.is_reverse ::
    '\t' :: '0' :: 'M' :: ['\n']

/-- One `"{}{}"` path element: node id then orientation character. -/
def pathElement (h : Handle) : List Char :=
  natToChars h.id ++ [orientChar h.is_reverse]

/-- `writeln!(file, "P\t{}\t{}\t*", path_name, path_elements.join(","))`. -/
def pathLine (p : List Char × List Handle) : List Char :=
  'P' :: '\t' :: p.1 ++ '\t' ::
    (List.intercalate [','] (p.2.map pathElement)) ++ '\t' :: '*' :: ['\n']

/-- `write_graph_to_gfa`: header, then segment lines sorted by node id,
link lines sorted by `(from id, to id)`, path lines sorted by name
(each sort stable, as Rust's `sort_by`/`sort_by_key`). -/
def write_graph_to_gfa (g : SerGraph) : List Char :=
  "H\tVN:Z:1.0\n".toList ++
    ((List.insertionSort nodeLE g.nodes).map segLine).flatten ++
    ((List.insertionSort edgeLE g.edges).map linkLine).flatten ++
    ((List.insertionSort pathLE g.paths).map pathLine).flatten

/-! ## Lemmas about classification and grouping -/

theorem has_overlap_iff (r1 r2 : RangeInfo) :
    has_overlap r1 r2 = true ↔ r1.start < r2.«end» ∧ r2.start < r1.«end» := by
  simp [has_overlap]

theorem is_contiguous_iff (r1 r2 : RangeInfo) :
    is_contiguous r1 r2 = true ↔ r1.«end» = r2.start := by
  simp [is_contiguous]

/-- An adjacent contiguous pair cannot overlap: `end₁ = start₂` would
give `start₂ < end₁ = start₂`. -/
theorem contig_no_overlap {r1 r2 : RangeInfo} (h : is_contiguous r1 r2 = true) :
    has_overlap r1 r2 = false := by
  rw [is_contiguous_iff] at h
  rw [Bool.eq_false_iff]
  intro hov
  rw [has_overlap_iff] at hov
  omega

theorem allContiguous_iff_chain :
    ∀ l : List RangeInfo,
      allContiguous l = true ↔ List.Chain' (fun a b => a.«end» = b.start) l
  | [] => by simp [allContiguous]
  | [_] => by simp [allContiguous]
  | r1 :: r2 :: rest => by
    rw [allContiguous, List.chain'_cons, Bool.and_eq_true,
      allContiguous_iff_chain (r2 :: rest), is_contiguous_iff]

theorem hasOverlaps_of_adjacent :
    ∀ (l₁ : List RangeInfo) (a b : RangeInfo) (l₂ : List RangeInfo),
      has_overlap a b = true → hasOverlaps (l₁ ++ a :: b :: l₂) = true
  | [], a, b, l₂, h => by rw [List.nil_append, hasOverlaps, h, Bool.true_or]
  | x :: l₁, a, b, l₂, h => by
    obtain ⟨z, zs, hz⟩ : ∃ z zs, l₁ ++ a :: b :: l₂ = z :: zs := by
      cases l₁ <;> exact ⟨_, _, rfl⟩
    rw [List.cons_append, hz, hasOverlaps, ← hz,
      hasOverlaps_of_adjacent l₁ a b l₂ h, Bool.or_true]

theorem groupAux_flatten :
    ∀ (l : List RangeInfo) (prev : RangeInfo) (cur : List RangeInfo),
      (groupAux prev cur l).flatten = cur ++ l
  | [], _, cur => by simp [groupAux]
  | r :: rest, prev, cur => by
    rw [groupAux]
    split
    · rw [groupAux_flatten rest r (cur ++ [r])]; simp
    · rw [List.flatten_cons, groupAux_flatten rest r [r]]; simp

theorem groupRanges_flatten (l : List RangeInfo) : (groupRanges l).flatten = l := by
  cases l with
  | nil => rfl
  | cons r rest => rw [groupRanges, groupAux_flatten]; rfl

theorem groupAux_ne_nil :
    ∀ (l : List RangeInfo) (prev : RangeInfo) (cur : List RangeInfo),
      groupAux prev cur l ≠ []
  | [], _, _ => by simp [groupAux]
  | r :: rest, prev, cur => by
    rw [groupAux]
    split
    · exact groupAux_ne_nil rest r (cur ++ [r])
    · simp

theorem groupAux_head :
    ∀ (l : List RangeInfo) (prev : RangeInfo) (cur : List RangeInfo), cur ≠ [] →
      ∃ g gs, groupAux prev cur l = g :: gs ∧ g.head? = cur.head?
  | [], _, cur, _ => ⟨cur, [], rfl, rfl⟩
  | r :: rest, prev, cur, hcur => by
    rw [groupAux]
    split
    · obtain ⟨g, gs, hgs, hh⟩ := groupAux_head rest r (cur ++ [r]) (by simp)
      refine ⟨g, gs, hgs, ?_⟩
      obtain ⟨c, cs, rfl⟩ := List.exists_cons_of_ne_nil hcur
      simpa using hh
    · exact ⟨cur, _, rfl, rfl⟩

theorem groupAux_chain_contig :
    ∀ (l : List RangeInfo) (prev : RangeInfo) (cur : List RangeInfo),
      List.Chain' (fun a b => is_contiguous a b = true) cur →
      cur.getLast? = some prev →
      ∀ g ∈ groupAux prev cur l, List.Chain' (fun a b => is_contiguous a b = true) g
  | [], prev, cur, hchain, _, g, hg => by
    rw [groupAux, List.mem_singleton] at hg
    exact hg ▸ hchain
  | r :: rest, prev, cur, hchain, hlast, g, hg => by
    rw [groupAux] at hg
    split at hg
    · refine groupAux_chain_contig rest r (cur ++ [r]) ?_ ?_ g hg
      · refine List.chain'_append.mpr ⟨hchain, List.chain'_singleton r, ?_⟩
        intro x hx y hy
        rw [hlast, Option.mem_some_iff] at hx
        rw [List.head?_cons, Option.mem_some_iff] at hy
        subst hx; subst hy
        assumption
      · exact List.getLast?_concat cur
    · rcases List.mem_cons.mp hg with hg | hg
      · exact hg ▸ hchain
      · exact groupAux_chain_contig rest r [r] (List.chain'_singleton r) rfl g hg

theorem groupAux_chain_break :
    ∀ (l : List RangeInfo) (prev : RangeInfo) (cur : List RangeInfo),
      cur.getLast? = some prev →
      List.Chain' groupBreak (groupAux prev cur l)
  | [], _, cur, _ => by rw [groupAux]; exact List.chain'_singleton cur
  | r :: rest, prev, cur, hlast => by
    rw [groupAux]
    split
    · exact groupAux_chain_break rest r (cur ++ [r]) (List.getLast?_concat cur)
    · refine List.chain'_cons'.mpr ⟨?_, groupAux_chain_break rest r [r] rfl⟩
      intro y hy
      obtain ⟨g, gs, hgs, hh⟩ := groupAux_head rest r [r] (by simp)
      rw [hgs, List.head?_cons, Option.mem_some_iff] at hy
      subst hy
      intro a b ha hb
      rw [hlast, Option.some_inj] at ha
      rw [hh, List.head?_cons, Option.some_inj] at hb
      subst ha; subst hb
      rename_i hnc
      exact Bool.not_eq_true _ ▸ hnc

theorem groupRanges_chain_contig (l : List RangeInfo) :
    ∀ g ∈ groupRanges l, List.Chain' (fun a b => is_contiguous a b = true) g := by
  cases l with
  | nil => intro g hg; simp [groupRanges] at hg
  | cons r rest =>
    exact groupAux_chain_contig rest r [r] (List.chain'_singleton r) rfl

theorem groupRanges_chain_break (l : List RangeInfo) :
    List.Chain' groupBreak (groupRanges l) := by
  cases l with
  | nil => exact List.chain'_nil
  | cons r rest => exact groupAux_chain_break rest r [r] rfl

/-! ## Claim theorems: range reconciliation -/

/-- C3: for every locus whose ranges, sorted by `(start, end)`, have
every adjacent pair contiguous (`r[i].end == r[i+1].start`) and no
overlapping pair, the reconciler emits exactly one output path named
exactly by the bare locus key, whose step sequence is the concatenation
of each range's steps in sorted order. -/
theorem c3_full_reconstruction (key : List Char) (ranges : List RangeInfo)
    (hc : List.Chain' (fun a b => a.«end» = b.start) (sortRanges ranges))
    (hov : hasOverlaps (sortRanges ranges) = false) :
    reconcileLocus key ranges =
      [(key, ((sortRanges ranges).map RangeInfo.steps).flatten)] := by
  have hac : allContiguous (sortRanges ranges) = true :=
    (allContiguous_iff_chain _).mpr hc
  unfold reconcileLocus
  simp [hac, hov]

/-- Witness for C3 at three contiguous ranges `[0,100)`, `[100,250)`, `[250,300)`. -/
theorem c3_full_reconstruction_witness :
    List.Chain' (fun a b => a.«end» = b.start)
        (sortRanges [⟨0, 100, 0, [⟨1, false⟩]⟩, ⟨100, 250, 1, [⟨2, false⟩]⟩,
          ⟨250, 300, 2, [⟨3, false⟩]⟩])
      ∧ hasOverlaps (sortRanges [⟨0, 100, 0, [⟨1, false⟩]⟩,
          ⟨100, 250, 1, [⟨2, false⟩]⟩, ⟨250, 300, 2, [⟨3, false⟩]⟩]) = false
      ∧ reconcileLocus "s#1#chr1".toList [⟨0, 100, 0, [⟨1, false⟩]⟩,
          ⟨100, 250, 1, [⟨2, false⟩]⟩, ⟨250, 300, 2, [⟨3, false⟩]⟩] =
          [("s#1#chr1".toList,
            ((sortRanges [⟨0, 100, 0, [⟨1, false⟩]⟩, ⟨100, 250, 1, [⟨2, false⟩]⟩,
              ⟨250, 300, 2, [⟨3, false⟩]⟩]).map RangeInfo.steps).flatten)]
      ∧ reconcileLocus "s#1#chr1".toList [⟨0, 100, 0, [⟨1, false⟩]⟩,
          ⟨100, 250, 1, [⟨2, false⟩]⟩, ⟨250, 300, 2, [⟨3, false⟩]⟩] =
          [("s#1#chr1".toList, [⟨1, false⟩, ⟨2, false⟩, ⟨3, false⟩])] :=
  ⟨(allContiguous_iff_chain _).mp (by decide), by decide,
    c3_full_reconstruction "s#1#chr1".toList _
      ((allContiguous_iff_chain _).mp (by decide)) (by decide),
    by decide⟩

/-- C4: for every locus whose sorted ranges are not all contiguous, the
output is exactly one path per greedy group (named
`key:group_start-group_end` by `groupName`); the groups partition the
sorted sequence, so every input range's steps land in exactly one output
path in original order; a group only extends across `end == start`
boundaries, and consecutive groups are separated by a contiguity break. -/
theorem c4_gap_splitting (key : List Char) (ranges : List RangeInfo)
    (h : allContiguous (sortRanges ranges) = false) :
    reconcileLocus key ranges =
        (groupRanges (sortRanges ranges)).map (fun g => (groupName key g, groupSteps g))
      ∧ (groupRanges (sortRanges ranges)).flatten = sortRanges ranges
      ∧ (∀ g ∈ groupRanges (sortRanges ranges),
          List.Chain' (fun a b => is_contiguous a b = true) g)
      ∧ List.Chain' groupBreak (groupRanges (sortRanges ranges)) := by
  refine ⟨?_, groupRanges_flatten _, groupRanges_chain_contig _,
    groupRanges_chain_break _⟩
  unfold reconcileLocus
  simp [h]

/-- Witness for C4 at the gap example `[0,100)`, `[150,250)`: two paths named `key:0-100` and `key:150-250`. -/
theorem c4_gap_splitting_witness :
    allContiguous (sortRanges [⟨0, 100, 0, [⟨1, false⟩]⟩,
        ⟨150, 250, 1, [⟨2, false⟩]⟩]) = false
      ∧ (reconcileLocus "key".toList [⟨0, 100, 0, [⟨1, false⟩]⟩,
            ⟨150, 250, 1, [⟨2, false⟩]⟩] =
          (groupRanges (sortRanges [⟨0, 100, 0, [⟨1, false⟩]⟩,
            ⟨150, 250, 1, [⟨2, false⟩]⟩])).map
              (fun g => (groupName "key".toList g, groupSteps g))
        ∧ (groupRanges (sortRanges [⟨0, 100, 0, [⟨1, false⟩]⟩,
            ⟨150, 250, 1, [⟨2, false⟩]⟩])).flatten =
            sortRanges [⟨0, 100, 0, [⟨1, false⟩]⟩, ⟨150, 250, 1, [⟨2, false⟩]⟩]
        ∧ (∀ g ∈ groupRanges (sortRanges [⟨0, 100, 0, [⟨1, false⟩]⟩,
              ⟨150, 250, 1, [⟨2, false⟩]⟩]),
            List.Chain' (fun a b => is_contiguous a b = true) g)
        ∧ List.Chain' groupBreak (groupRanges
            (sortRanges [⟨0, 100, 0, [⟨1, false⟩]⟩, ⟨150, 250, 1, [⟨2, false⟩]⟩])))
      ∧ reconcileLocus "key".toList [⟨0, 100, 0, [⟨1, false⟩]⟩,
          ⟨150, 250, 1, [⟨2, false⟩]⟩] =
          [("key:0-100".toList, [⟨1, false⟩]), ("key:150-250".toList, [⟨2, false⟩])] :=
  ⟨by decide, c4_gap_splitting "key".toList _ (by decide), by decide⟩

/-- C2: if the sorted ranges of a locus contain an adjacent overlapping
pair, then (with `--debug`) the overlap warning is emitted, the run
proceeds to build the locus's output paths by greedy grouping (overlap
is non-fatal), and the overlapping pair is never adjacent inside a
single group: the overlap boundary is a group break. -/
theorem c2_overlap_nonfatal (key : List Char) (ranges : List RangeInfo)
    (l₁ l₂ : List RangeInfo) (a b : RangeInfo)
    (hsplit : sortRanges ranges = l₁ ++ a :: b :: l₂)
    (hov : has_overlap a b = true) :
    DiagEvent.overlapWarning ∈ reconcilerDiag true key ranges
      ∧ reconcileLocus key ranges =
          (groupRanges (sortRanges ranges)).map
            (fun g => (groupName key g, groupSteps g))
      ∧ reconcileLocus key ranges ≠ []
      ∧ ∀ g ∈ groupRanges (sortRanges ranges), ¬ ∃ s t, g = s ++ a :: b :: t := by
  have hho : hasOverlaps (sortRanges ranges) = true := by
    rw [hsplit]; exact hasOverlaps_of_adjacent l₁ a b l₂ hov
  have hbuild : reconcileLocus key ranges =
      (groupRanges (sortRanges ranges)).map
        (fun g => (groupName key g, groupSteps g)) := by
    unfold reconcileLocus
    simp [hho]
  refine ⟨?_, hbuild, ?_, ?_⟩
  · unfold reconcilerDiag
    simp [hho]
  · rw [hbuild]
    have hs : sortRanges ranges ≠ [] := by rw [hsplit]; simp
    obtain ⟨x, xs, hx⟩ := List.exists_cons_of_ne_nil hs
    rw [hx, groupRanges]
    simp [groupAux_ne_nil]
  · rintro g hg ⟨s, t, hgst⟩
    have hchain := groupRanges_chain_contig _ g hg
    rw [hgst] at hchain
    have hcontig : is_contiguous a b = true :=
      List.chain'_cons.mp (List.chain'_append.mp hchain).2.1 |>.1
    rw [contig_no_overlap hcontig] at hov
    exact Bool.false_ne_true hov

/-- Witness for C2 at the overlap example `[0,100)`, `[50,150)`. -/
theorem c2_overlap_nonfatal_witness :
    sortRanges [⟨0, 100, 0, [⟨1, false⟩]⟩, ⟨50, 150, 1, [⟨2, false⟩]⟩] =
        [] ++ ⟨0, 100, 0, [⟨1, false⟩]⟩ :: ⟨50, 150, 1, [⟨2, false⟩]⟩ :: []
      ∧ has_overlap ⟨0, 100, 0, [⟨1, false⟩]⟩ ⟨50, 150, 1, [⟨2, false⟩]⟩ = true
      ∧ DiagEvent.overlapWarning ∈
          reconcilerDiag true "key".toList
            [⟨0, 100, 0, [⟨1, false⟩]⟩, ⟨50, 150, 1, [⟨2, false⟩]⟩]
      ∧ reconcileLocus "key".toList
            [⟨0, 100, 0, [⟨1, false⟩]⟩, ⟨50, 150, 1, [⟨2, false⟩]⟩] =
          [("key:0-100".toList, [⟨1, false⟩]), ("key:50-150".toList, [⟨2, false⟩])] :=
  ⟨by decide, by decide,
    (c2_overlap_nonfatal "key".toList
        [⟨0, 100, 0, [⟨1, false⟩]⟩, ⟨50, 150, 1, [⟨2, false⟩]⟩] [] []
        ⟨0, 100, 0, [⟨1, false⟩]⟩ ⟨50, 150, 1, [⟨2, false⟩]⟩
        (by decide) (by decide)).1,
    by decide⟩

/-- C10: a locus holding exactly two ranges with identical non-empty
`(start, end)` coordinates classifies them as overlapping and
non-contiguous, puts each into its own group, and emits two output paths
carrying the exact same name `key:start-end`. -/
theorem c10_duplicate_ranges (key : List Char) (s e g1 g2 : Nat)
    (st1 st2 : List Handle) (h : s < e) :
    has_overlap ⟨s, e, g1, st1⟩ ⟨s, e, g2, st2⟩ = true
      ∧ is_contiguous ⟨s, e, g1, st1⟩ ⟨s, e, g2, st2⟩ = false
      ∧ groupRanges (sortRanges [⟨s, e, g1, st1⟩, ⟨s, e, g2, st2⟩]) =
          [[⟨s, e, g1, st1⟩], [⟨s, e, g2, st2⟩]]
      ∧ reconcileLocus key [⟨s, e, g1, st1⟩, ⟨s, e, g2, st2⟩] =
          [(key ++ ':' :: natToChars s ++ '-' :: natToChars e, st1),
           (key ++ ':' :: natToChars s ++ '-' :: natToChars e, st2)] := by
  have h12 : rangeLE ⟨s, e, g1, st1⟩ ⟨s, e, g2, st2⟩ := Or.inr ⟨rfl, Nat.le_refl _⟩
  have hsort : sortRanges [(⟨s, e, g1, st1⟩ : RangeInfo), ⟨s, e, g2, st2⟩] =
      [⟨s, e, g1, st1⟩, ⟨s, e, g2, st2⟩] := by
    unfold sortRanges
    simp only [List.insertionSort, List.orderedInsert_nil]
    rw [List.orderedInsert, if_pos h12]
  have hcontig : is_contiguous ⟨s, e, g1, st1⟩ ⟨s, e, g2, st2⟩ = false := by
    rw [Bool.eq_false_iff]
    intro hc
    rw [is_contiguous_iff] at hc
    simp at hc
    omega
  have hovl : has_overlap ⟨s, e, g1, st1⟩ ⟨s, e, g2, st2⟩ = true := by
    rw [has_overlap_iff]
    exact ⟨h, h⟩
  have hgroups : groupRanges [(⟨s, e, g1, st1⟩ : RangeInfo), ⟨s, e, g2, st2⟩] =
      [[⟨s, e, g1, st1⟩], [⟨s, e, g2, st2⟩]] := by
    rw [groupRanges, groupAux, if_neg (by rw [hcontig]; exact Bool.false_ne_true),
      groupAux]
  have hac : allContiguous [(⟨s, e, g1, st1⟩ : RangeInfo), ⟨s, e, g2, st2⟩] = false := by
    rw [allContiguous, hcontig, Bool.false_and]
  refine ⟨hovl, hcontig, by rw [hsort]; exact hgroups, ?_⟩
  unfold reconcileLocus
  rw [hsort]
  simp [hac, hgroups, groupName, groupSteps]

/-- Witness for C10 at two copies of `[0,100)` from blocks 7 and 9. -/
theorem c10_duplicate_ranges_witness :
    0 < 100
      ∧ (has_overlap ⟨0, 100, 7, [⟨1, false⟩]⟩ ⟨0, 100, 9, [⟨2, true⟩]⟩ = true
        ∧ is_contiguous ⟨0, 100, 7, [⟨1, false⟩]⟩ ⟨0, 100, 9, [⟨2, true⟩]⟩ = false
        ∧ groupRanges (sortRanges [⟨0, 100, 7, [⟨1, false⟩]⟩, ⟨0, 100, 9, [⟨2, true⟩]⟩]) =
            [[⟨0, 100, 7, [⟨1, false⟩]⟩], [⟨0, 100, 9, [⟨2, true⟩]⟩]]
        ∧ reconcileLocus "s#1#chr1".toList
              [⟨0, 100, 7, [⟨1, false⟩]⟩, ⟨0, 100, 9, [⟨2, true⟩]⟩] =
            [("s#1#chr1".toList ++ ':' :: natToChars 0 ++ '-' :: natToChars 100,
              [⟨1, false⟩]),
             ("s#1#chr1".toList ++ ':' :: natToChars 0 ++ '-' :: natToChars 100,
              [⟨2, true⟩])])
      ∧ reconcileLocus "s#1#chr1".toList
            [⟨0, 100, 7, [⟨1, false⟩]⟩, ⟨0, 100, 9, [⟨2, true⟩]⟩] =
          [("s#1#chr1:0-100".toList, [⟨1, false⟩]),
           ("s#1#chr1:0-100".toList, [⟨2, true⟩])] :=
  ⟨by decide,
    c10_duplicate_ranges "s#1#chr1".toList 0 100 7 9 [⟨1, false⟩] [⟨2, true⟩] (by decide),
    by decide⟩

/-! ## Lemmas about the Path & Edge Builder -/

theorem addPathEdgesAux_count_mono :
    ∀ (l : List Handle) (prev : Handle) (edges : List (Handle × Handle))
      (e : Handle × Handle),
      edges.count e ≤ (addPathEdgesAux prev edges l).count e
  | [], _, _, _ => Nat.le_refl _
  | s :: rest, prev, edges, e => by
    rw [addPathEdgesAux]
    refine Nat.le_trans ?_ (addPathEdgesAux_count_mono rest s _ e)
    split
    · exact Nat.le_refl _
    · rw [create_edge, List.count_append]
      exact Nat.le_add_right _ _

theorem addPathEdgesAux_count_le :
    ∀ (l : List Handle) (prev : Handle) (edges : List (Handle × Handle)),
      (∀ e, edges.count e ≤ 1) →
      ∀ e, (addPathEdgesAux prev edges l).count e ≤ 1
  | [], _, _, h, e => h e
  | s :: rest, prev, edges, h, e => by
    rw [addPathEdgesAux]
    refine addPathEdgesAux_count_le rest s _ ?_ e
    intro e'
    split
    · exact h e'
    · rename_i hne
      simp only [has_edge, decide_eq_true_eq] at hne
      rw [create_edge, List.count_append]
      by_cases he' : e' = (prev, s)
      · subst he'
        rw [List.count_eq_zero.mpr hne]
        simp [List.count_singleton_self]
      · rw [List.count_eq_zero.mpr (by simp [he'] : e' ∉ [(prev, s)])]
        simpa using h e'

theorem addPathEdgesAux_pairs :
    ∀ (l : List Handle) (prev : Handle) (edges : List (Handle × Handle)),
      ∀ p ∈ consecPairs (prev :: l), 1 ≤ (addPathEdgesAux prev edges l).count p
  | [], prev, edges, p, hp => by simp [consecPairs] at hp
  | s :: rest, prev, edges, p, hp => by
    rw [consecPairs] at hp
    rw [addPathEdgesAux]
    rcases List.mem_cons.mp hp with rfl | hp'
    · refine Nat.le_trans ?_ (addPathEdgesAux_count_mono rest s _ _)
      split
      · rename_i he
        rw [has_edge, decide_eq_true_eq] at he
        exact List.count_pos_iff.mpr he
      · rw [create_edge, List.count_append, List.count_singleton_self]
        simp
    · exact addPathEdgesAux_pairs rest s _ p hp'

/-- C6: if every ordered oriented edge occurs at most once in the
combined graph's edge collection, then after the Path & Edge Builder
materializes a path, every edge still occurs at most once, and the edge
of every consecutive step pair of that path occurs exactly once — in
particular adding the pair of an already-connected step pair a second
time leaves exactly one copy. -/
theorem c6_edge_dedup (edges : List (Handle × Handle)) (steps : List Handle)
    (h : ∀ e, edges.count e ≤ 1) :
    (∀ e, (addPathEdges edges steps).count e ≤ 1)
      ∧ ∀ p ∈ consecPairs steps, (addPathEdges edges steps).count p = 1 := by
  cases steps with
  | nil =>
    refine ⟨fun e => h e, ?_⟩
    intro p hp
    simp [consecPairs] at hp
  | cons s rest =>
    rw [addPathEdges]
    refine ⟨addPathEdgesAux_count_le rest s edges h, ?_⟩
    intro p hp
    exact Nat.le_antisymm (addPathEdgesAux_count_le rest s edges h p)
      (addPathEdgesAux_pairs rest s edges p hp)

/-- Witness for C6: the step list `1+,2+,1+,2+` asks for the edge `(1+,2+)` twice; exactly one copy is created. -/
theorem c6_edge_dedup_witness :
    (∀ e : Handle × Handle, ([] : List (Handle × Handle)).count e ≤ 1)
      ∧ ((∀ e, (addPathEdges []
            [⟨1, false⟩, ⟨2, false⟩, ⟨1, false⟩, ⟨2, false⟩]).count e ≤ 1)
        ∧ ∀ p ∈ consecPairs [⟨1, false⟩, ⟨2, false⟩, ⟨1, false⟩, ⟨2, false⟩],
            (addPathEdges []
              [⟨1, false⟩, ⟨2, false⟩, ⟨1, false⟩, ⟨2, false⟩]).count p = 1)
      ∧ addPathEdges [] [⟨1, false⟩, ⟨2, false⟩, ⟨1, false⟩, ⟨2, false⟩] =
          [(⟨1, false⟩, ⟨2, false⟩), (⟨2, false⟩, ⟨1, false⟩)] :=
  ⟨fun e => by simp, c6_edge_dedup [] _ (fun e => by simp), by decide⟩

/-! ## Lemmas about the ID Translator -/

theorem addNodes_of_fresh :
    ∀ (l ids : List Nat), (∀ x ∈ l, x ∉ ids) → l.Nodup →
      addNodes ids l = ids ++ l
  | [], ids, _, _ => by simp [addNodes]
  | n :: rest, ids, hf, hn => by
    rw [addNodes, if_neg (hf n (List.mem_cons_self n rest))]
    rw [addNodes_of_fresh rest (ids ++ [n]) ?_ hn.of_cons]
    · simp
    · intro x hx
      rw [List.mem_append, List.mem_singleton]
      rintro (hxi | rfl)
      · exact hf x (List.mem_cons_of_mem n hx) hxi
      · exact (List.nodup_cons.mp hn).1 hx

theorem foldBlocksAux_spec :
    ∀ (blocks : List (List Nat)) (ids : List Nat),
      (∀ x ∈ ids, 1 ≤ x ∧ x ≤ ids.length) → ids.Nodup →
      (∀ b ∈ blocks, b.Nodup ∧ ∀ id ∈ b, 1 ≤ id ∧ id ≤ b.length) →
      foldBlocksAux ids blocks = ids ++ translateConcat ids.length blocks
        ∧ (∀ x ∈ foldBlocksAux ids blocks,
            1 ≤ x ∧ x ≤ (foldBlocksAux ids blocks).length)
        ∧ (foldBlocksAux ids blocks).Nodup
        ∧ (foldBlocksAux ids blocks).length =
            ids.length + (blocks.map List.length).sum
  | [], ids, hbound, hnodup, _ => by
    rw [foldBlocksAux, translateConcat]
    exact ⟨by simp, hbound, hnodup, by simp⟩
  | b :: rest, ids, hbound, hnodup, hblocks => by
    have hb := hblocks b (List.mem_cons_self b rest)
    have hfresh : ∀ x ∈ b.map (ids.length + ·), x ∉ ids := by
      intro x hx hxi
      obtain ⟨id, hid, rfl⟩ := List.mem_map.mp hx
      have h1 := (hb.2 id hid).1
      have h2 := (hbound _ hxi).2
      omega
    have htnodup : (b.map (ids.length + ·)).Nodup :=
      hb.1.map fun _ _ h => Nat.add_left_cancel h
    have hadd : addNodes ids (b.map (ids.length + ·)) = ids ++ b.map (ids.length + ·) :=
      addNodes_of_fresh _ ids hfresh htnodup
    have hlen : (ids ++ b.map (ids.length + ·)).length = ids.length + b.length := by
      simp
    have hbound' : ∀ x ∈ ids ++ b.map (ids.length + ·),
        1 ≤ x ∧ x ≤ (ids ++ b.map (ids.length + ·)).length := by
      intro x hx
      rw [hlen]
      rcases List.mem_append.mp hx with hxi | hxt
      · have := hbound x hxi
        omega
      · obtain ⟨id, hid, rfl⟩ := List.mem_map.mp hxt
        have := hb.2 id hid
        omega
    have hnodup' : (ids ++ b.map (ids.length + ·)).Nodup := by
      rw [List.nodup_append]
      exact ⟨hnodup, htnodup, fun x hxi hxt => hfresh x hxt hxi⟩
    have hrest : ∀ b' ∈ rest, b'.Nodup ∧ ∀ id ∈ b', 1 ≤ id ∧ id ≤ b'.length :=
      fun b' hb' => hblocks b' (List.mem_cons_of_mem b hb')
    obtain ⟨ih1, ih2, ih3, ih4⟩ :=
      foldBlocksAux_spec rest (ids ++ b.map (ids.length + ·)) hbound' hnodup' hrest
    rw [foldBlocksAux, hadd]
    refine ⟨?_, ih2, ih3, ?_⟩
    · rw [ih1, translateConcat, hlen]
      simp
    · rw [ih4, hlen, List.map_cons, List.sum_cons]
      omega

/-- C5: for blocks whose local node ids are distinct and lie in
`[1, mᵢ]`, folding every block with the running node-count offset yields
exactly the prefix-sum translated concatenation: translated ids never
collide across blocks (the combined id list has no duplicate), and the
combined graph's final node count is the sum of the block node counts. -/
theorem c5_translation_injective (blocks : List (List Nat))
    (h : ∀ b ∈ blocks, b.Nodup ∧ ∀ id ∈ b, 1 ≤ id ∧ id ≤ b.length) :
    foldBlocks blocks = translateConcat 0 blocks
      ∧ (foldBlocks blocks).Nodup
      ∧ (foldBlocks blocks).length = (blocks.map List.length).sum := by
  obtain ⟨h1, _, h3, h4⟩ := foldBlocksAux_spec blocks [] (by simp) List.nodup_nil h
  rw [foldBlocks]
  refine ⟨?_, h3, ?_⟩
  · rw [h1]
    simp
  · rw [h4]
    simp

/-- Witness for C5 at blocks with node ids `[1,2]` and `[1,2,3]`: combined ids `[1,2,3,4,5]`. -/
theorem c5_translation_injective_witness :
    (∀ b ∈ [[1, 2], [1, 2, 3]], b.Nodup ∧ ∀ id ∈ b, 1 ≤ id ∧ id ≤ b.length)
      ∧ (foldBlocks [[1, 2], [1, 2, 3]] = translateConcat 0 [[1, 2], [1, 2, 3]]
        ∧ (foldBlocks [[1, 2], [1, 2, 3]]).Nodup
        ∧ (foldBlocks [[1, 2], [1, 2, 3]]).length =
            ([[1, 2], [1, 2, 3]].map List.length).sum)
      ∧ foldBlocks [[1, 2], [1, 2, 3]] = [1, 2, 3, 4, 5] :=
  ⟨by decide, c5_translation_injective [[1, 2], [1, 2, 3]] (by decide), by decide⟩

/-! ## Claim theorems: exit status and temp-file lifetime -/

/-- C1 (refuting the claimed behavior): when `write_graph_to_gfa`
returns an I/O error, `main`'s final `match` prints
`Error writing GFA file: …` to stderr and returns normally, so the
process exit status is `0`, not non-zero; the successful case also
exits `0`. -/
theorem c1_write_error_exits_zero :
    (mainExit false (WriteOutcome.ioError "disk full".toList) "out.gfa".toList).2 = 0
      ∧ (mainExit false (WriteOutcome.ioError "disk full".toList) "out.gfa".toList).1 =
          ["Error writing GFA file: disk full".toList]
      ∧ (mainExit true WriteOutcome.ok "out.gfa".toList).2 = 0 := by
  decide

/-- C8 (refuting the claimed behavior): when parsing the decompressed
temp file fails, `.unwrap()` panics before `std::fs::remove_file` runs,
so `block.gfa.gz.tmp` survives in the file system; only the success
path deletes it. -/
theorem c8_temp_file_leaked_on_parse_error :
    (loadCompressedBlock [] "block.gfa.gz".toList ParseOutcome.parseError).2 =
        LoadResult.panicked
      ∧ tempPath "block.gfa.gz".toList ∈
          (loadCompressedBlock [] "block.gfa.gz".toList ParseOutcome.parseError).1
      ∧ tempPath "block.gfa.gz".toList ∉
          (loadCompressedBlock [] "block.gfa.gz".toList ParseOutcome.ok).1 := by
  decide

/-! ## Claim theorem: Range Extractor name rejection -/

/-- C7: every path name failing the pattern — wrong number of `#`
fields, not exactly one `:` in the last field, not exactly one `-` after
the `:`, or non-numeric bounds — yields no range, and the path
contributes nothing to the per-locus range collection (it is silently
dropped from reconciliation). -/
theorem c7_name_rejection (name : List Char) (h : malformedName name = true) :
    split_path_name name = none
      ∧ ∀ (gid off : Nat) (steps : List Handle) (rest : List (List Char × List Handle)),
        collectRanges gid off ((name, steps) :: rest) = collectRanges gid off rest := by
  have hnone : split_path_name name = none := by
    unfold malformedName at h
    unfold split_path_name
    split at h <;> try rfl
    split at h <;> try rfl
    split at h <;> try rfl
    rename_i r0 r1 heq
    rw [Bool.or_eq_true, Option.isNone_iff_eq_none, Option.isNone_iff_eq_none] at h
    rcases h with h0 | h1
    · simp [h0]
    · cases hp0 : parse_usize r0 <;> simp [hp0, h1]
  refine ⟨hnone, ?_⟩
  intro gid off steps rest
  rw [collectRanges, hnone]

/-- Witness for C7 at `foo#bar` (two fields) and `foo#1#chr1:abc-100` (non-numeric start); a well-formed name is not malformed. -/
theorem c7_name_rejection_witness :
    (malformedName "foo#bar".toList = true
      ∧ split_path_name "foo#bar".toList = none
      ∧ collectRanges 0 0 [("foo#bar".toList, [⟨1, false⟩])] = [])
      ∧ (malformedName "foo#1#chr1:abc-100".toList = true
        ∧ split_path_name "foo#1#chr1:abc-100".toList = none
        ∧ collectRanges 0 0 [("foo#1#chr1:abc-100".toList, [⟨1, false⟩])] = [])
      ∧ malformedName "foo#1#chr1:0-100".toList = false :=
  ⟨⟨by decide, (c7_name_rejection "foo#bar".toList (by decide)).1,
      ((c7_name_rejection "foo#bar".toList (by decide)).2 0 0 [⟨1, false⟩] [])⟩,
    ⟨by decide, (c7_name_rejection "foo#1#chr1:abc-100".toList (by decide)).1,
      ((c7_name_rejection "foo#1#chr1:abc-100".toList (by decide)).2 0 0 [⟨1, false⟩] [])⟩,
    by decide⟩

/-! ## Lemmas about the serializer's sort relations -/

instance : IsTotal (Handle × List Char) nodeLE :=
  ⟨fun a b => Nat.le_total a.1.id b.1.id⟩

instance : IsTrans (Handle × List Char) nodeLE :=
  ⟨fun _ _ _ hab hbc => Nat.le_trans hab hbc⟩

instance : IsTotal (Handle × Handle) edgeLE :=
  ⟨fun a b => by unfold edgeLE; omega⟩

instance : IsTrans (Handle × Handle) edgeLE :=
  ⟨fun a b c hab hbc => by unfold edgeLE at *; omega⟩

theorem bytesLE_total : ∀ a b : List Char, bytesLE a b = true ∨ bytesLE b a = true
  | [], _ => Or.inl rfl
  | _ :: _, [] => Or.inr rfl
  | a :: as, b :: bs => by
    rw [bytesLE, bytesLE]
    by_cases h1 : a.toNat < b.toNat
    · left
      simp [h1]
    · by_cases h2 : b.toNat < a.toNat
      · right
        simp [h1, h2]
      · rcases bytesLE_total as bs with h | h
        · left
          simp [h1, h2, h]
        · right
          simp [h1, h2, h]

theorem bytesLE_trans :
    ∀ a b c : List Char, bytesLE a b = true → bytesLE b c = true → bytesLE a c = true
  | [], _, _, _, _ => rfl
  | _ :: _, [], _, hab, _ => by simp [bytesLE] at hab
  | _ :: _, _ :: _, [], _, hbc => by simp [bytesLE] at hbc
  | a :: as, b :: bs, c :: cs, hab, hbc => by
    rw [bytesLE] at hab hbc ⊢
    rcases Nat.lt_trichotomy a.toNat b.toNat with h1 | h1 | h1
    · rcases Nat.lt_trichotomy b.toNat c.toNat with h2 | h2 | h2
      · simp [show a.toNat < c.toNat by omega]
      · simp [show a.toNat < c.toNat by omega]
      · simp [Nat.lt_asymm h2, h2] at hbc
    · rcases Nat.lt_trichotomy b.toNat c.toNat with h2 | h2 | h2
      · simp [show a.toNat < c.toNat by omega]
      · simp [h1, lt_self_iff_false] at hab
        simp [h2, lt_self_iff_false] at hbc
        simp [h1, h2, lt_self_iff_false]
        exact bytesLE_trans as bs cs hab hbc
      · simp [Nat.lt_asymm h2, h2] at hbc
    · simp [Nat.lt_asymm h1, h1] at hab

theorem bytesLE_antisymm :
    ∀ a b : List Char, bytesLE a b = true → bytesLE b a = true → a = b
  | [], [], _, _ => rfl
  | [], _ :: _, _, hba => by simp [bytesLE] at hba
  | _ :: _, [], hab, _ => by simp [bytesLE] at hab
  | a :: as, b :: bs, hab, hba => by
    rw [bytesLE] at hab hba
    by_cases h1 : a.toNat < b.toNat
    · simp [h1, Nat.lt_asymm h1] at hba
    · by_cases h2 : b.toNat < a.toNat
      · simp [h1, h2] at hab
      · have hc : a = b := by
          have ha := Char.ofNat_toNat a
          rw [show a.toNat = b.toNat by omega] at ha
          exact ha.symm.trans (Char.ofNat_toNat b)
        simp [h1, h2] at hab hba
        rw [hc, bytesLE_antisymm as bs hab hba]

instance : IsTotal (List Char × List Handle) pathLE :=
  ⟨fun a b => bytesLE_total a.1 b.1⟩

instance : IsTrans (List Char × List Handle) pathLE :=
  ⟨fun a b c hab hbc => bytesLE_trans a.1 b.1 c.1 hab hbc⟩

/-- Two sorted lists that are permutations of each other are equal,
provided the order is antisymmetric on the elements that actually occur
(sort keys do not tie between distinct elements). -/
theorem sorted_perm_eq {α : Type} {r : α → α → Prop} :
    ∀ (l₁ l₂ : List α), l₁.Perm l₂ → l₁.Sorted r → l₂.Sorted r →
      (∀ a ∈ l₁, ∀ b ∈ l₁, r a b → r b a → a = b) → l₁ = l₂
  | [], l₂, hp, _, _, _ => (hp.symm.eq_nil).symm
  | a :: t, l₂, hp, hs1, hs2, hanti => by
    cases l₂ with
    | nil => exact absurd hp.eq_nil (by simp)
    | cons b u =>
      have hab : a = b := by
        by_contra hne
        have hbmem : b ∈ a :: t := hp.mem_iff.mpr (List.mem_cons_self b u)
        have hamem : a ∈ b :: u := hp.mem_iff.mp (List.mem_cons_self a t)
        have hbt : b ∈ t := by
          rcases List.mem_cons.mp hbmem with hh | hh
          · exact absurd hh.symm hne
          · exact hh
        have hau : a ∈ u := by
          rcases List.mem_cons.mp hamem with hh | hh
          · exact absurd hh hne
          · exact hh
        have hrab : r a b := (List.sorted_cons.mp hs1).1 b hbt
        have hrba : r b a := (List.sorted_cons.mp hs2).1 a hau
        exact hne (hanti a (List.mem_cons_self a t) b hbmem hrab hrba)
      subst hab
      have htu : t.Perm u := hp.cons_inv
      have hrec := sorted_perm_eq t u htu (List.sorted_cons.mp hs1).2
        (List.sorted_cons.mp hs2).2
        (fun x hx y hy hxy hyx =>
          hanti x (List.mem_cons_of_mem a hx) y (List.mem_cons_of_mem a hy) hxy hyx)
      rw [hrec]

/-- Stable sorting of two enumerations of the same multiset gives the
same list whenever the sort keys do not tie between distinct elements. -/
theorem insertionSort_eq_of_perm {α : Type} (r : α → α → Prop) [DecidableRel r]
    [IsTotal α r] [IsTrans α r] (l₁ l₂ : List α) (hp : l₁.Perm l₂)
    (hanti : ∀ a ∈ l₁, ∀ b ∈ l₁, r a b → r b a → a = b) :
    List.insertionSort r l₁ = List.insertionSort r l₂ := by
  refine sorted_perm_eq _ _ ?_ (List.sorted_insertionSort r l₁)
    (List.sorted_insertionSort r l₂) ?_
  · exact (List.perm_insertionSort r l₁).trans
      (hp.trans (List.perm_insertionSort r l₂).symm)
  · intro a ha b hb
    exact hanti a ((List.perm_insertionSort r l₁).mem_iff.mp ha)
      b ((List.perm_insertionSort r l₁).mem_iff.mp hb)

/-! ## Claim theorems: serializer determinism -/

/-- C9 (refuting the claim as stated): the serialized output *can*
depend on internal hash-iteration order, because the sort keys do not
always determine the record order — here two output paths carry the
same name (the reachable situation of duplicate locus coordinates,
cf. `c10_duplicate_ranges`) but different steps, and the two
enumeration orders of the same path multiset serialize to different
bytes. -/
theorem c9_order_dependence_counterexample :
    ((⟨[(⟨1, false⟩, ['A']), (⟨2, false⟩, ['C'])], [],
        [("s#1#chr1:0-100".toList, [⟨1, false⟩]),
         ("s#1#chr1:0-100".toList, [⟨2, false⟩])]⟩ : SerGraph).nodes =
        (⟨[(⟨1, false⟩, ['A']), (⟨2, false⟩, ['C'])], [],
          [("s#1#chr1:0-100".toList, [⟨2, false⟩]),
           ("s#1#chr1:0-100".toList, [⟨1, false⟩])]⟩ : SerGraph).nodes
      ∧ (⟨[(⟨1, false⟩, ['A']), (⟨2, false⟩, ['C'])], [],
          [("s#1#chr1:0-100".toList, [⟨1, false⟩]),
           ("s#1#chr1:0-100".toList, [⟨2, false⟩])]⟩ : SerGraph).edges =
        (⟨[(⟨1, false⟩, ['A']), (⟨2, false⟩, ['C'])], [],
          [("s#1#chr1:0-100".toList, [⟨2, false⟩]),
           ("s#1#chr1:0-100".toList, [⟨1, false⟩])]⟩ : SerGraph).edges
      ∧ (⟨[(⟨1, false⟩, ['A']), (⟨2, false⟩, ['C'])], [],
          [("s#1#chr1:0-100".toList, [⟨1, false⟩]),
           ("s#1#chr1:0-100".toList, [⟨2, false⟩])]⟩ : SerGraph).paths.Perm
        (⟨[(⟨1, false⟩, ['A']), (⟨2, false⟩, ['C'])], [],
          [("s#1#chr1:0-100".toList, [⟨2, false⟩]),
           ("s#1#chr1:0-100".toList, [⟨1, false⟩])]⟩ : SerGraph).paths)
      ∧ write_graph_to_gfa
          ⟨[(⟨1, false⟩, ['A']), (⟨2, false⟩, ['C'])], [],
            [("s#1#chr1:0-100".toList, [⟨1, false⟩]),
             ("s#1#chr1:0-100".toList, [⟨2, false⟩])]⟩ ≠
        write_graph_to_gfa
          ⟨[(⟨1, false⟩, ['A']), (⟨2, false⟩, ['C'])], [],
            [("s#1#chr1:0-100".toList, [⟨2, false⟩]),
             ("s#1#chr1:0-100".toList, [⟨1, false⟩])]⟩ := by
  refine ⟨⟨rfl, rfl, ?_⟩, ?_⟩
  · exact List.Perm.swap _ _ _
  · decide

/-- C9, amended: two enumerations of the same combined-graph content
serialize to identical bytes *provided* every sort key is unique in its
collection — node ids pairwise distinct, no two edges sharing the
`(from id, to id)` pair, and no two paths sharing a name.  Under those
conditions the output does not depend on internal iteration order. -/
theorem c9_serializer_deterministic (g1 g2 : SerGraph)
    (hn : g1.nodes.Perm g2.nodes) (he : g1.edges.Perm g2.edges)
    (hp : g1.paths.Perm g2.paths)
    (hnid : (g1.nodes.map (fun n => n.1.id)).Nodup)
    (heid : (g1.edges.map (fun e => (e.1.id, e.2.id))).Nodup)
    (hpname : (g1.paths.map Prod.fst).Nodup) :
    write_graph_to_gfa g1 = write_graph_to_gfa g2 := by
  have hnodes := insertionSort_eq_of_perm nodeLE g1.nodes g2.nodes hn
    (fun a ha b hb hab hba =>
      List.inj_on_of_nodup_map hnid ha hb (Nat.le_antisymm hab hba))
  have hedges := insertionSort_eq_of_perm edgeLE g1.edges g2.edges he
    (fun a ha b hb hab hba => by
      refine List.inj_on_of_nodup_map heid ha hb ?_
      unfold edgeLE at hab hba
      have h1 : a.1.id = b.1.id := by omega
      have h2 : a.2.id = b.2.id := by omega
      rw [h1, h2])
  have hpaths := insertionSort_eq_of_perm pathLE g1.paths g2.paths hp
    (fun a ha b hb hab hba =>
      List.inj_on_of_nodup_map hpname ha hb (bytesLE_antisymm a.1 b.1 hab hba))
  unfold write_graph_to_gfa
  rw [hnodes, hedges, hpaths]

/-- Witness for the amended C9 at two enumeration orders of a two-node graph with unique sort keys. -/
theorem c9_serializer_deterministic_witness :
    ((⟨[(⟨2, false⟩, ['C']), (⟨1, false⟩, ['A'])],
        [(⟨1, false⟩, ⟨2, false⟩)], [(['p'], [⟨1, false⟩])]⟩ : SerGraph).nodes.Perm
        (⟨[(⟨1, false⟩, ['A']), (⟨2, false⟩, ['C'])],
          [(⟨1, false⟩, ⟨2, false⟩)], [(['p'], [⟨1, false⟩])]⟩ : SerGraph).nodes
      ∧ (⟨[(⟨2, false⟩, ['C']), (⟨1, false⟩, ['A'])],
          [(⟨1, false⟩, ⟨2, false⟩)], [(['p'], [⟨1, false⟩])]⟩ : SerGraph).edges.Perm
        (⟨[(⟨1, false⟩, ['A']), (⟨2, false⟩, ['C'])],
          [(⟨1, false⟩, ⟨2, false⟩)], [(['p'], [⟨1, false⟩])]⟩ : SerGraph).edges
      ∧ (⟨[(⟨2, false⟩, ['C']), (⟨1, false⟩, ['A'])],
          [(⟨1, false⟩, ⟨2, false⟩)], [(['p'], [⟨1, false⟩])]⟩ : SerGraph).paths.Perm
        (⟨[(⟨1, false⟩, ['A']), (⟨2, false⟩, ['C'])],
          [(⟨1, false⟩, ⟨2, false⟩)], [(['p'], [⟨1, false⟩])]⟩ : SerGraph).paths)
      ∧ write_graph_to_gfa
          ⟨[(⟨2, false⟩, ['C']), (⟨1, false⟩, ['A'])],
            [(⟨1, false⟩, ⟨2, false⟩)], [(['p'], [⟨1, false⟩])]⟩ =
        write_graph_to_gfa
          ⟨[(⟨1, false⟩, ['A']), (⟨2, false⟩, ['C'])],
            [(⟨1, false⟩, ⟨2, false⟩)], [(['p'], [⟨1, false⟩])]⟩ :=
  ⟨⟨List.Perm.swap _ _ _, List.Perm.refl _, List.Perm.refl _⟩,
    c9_serializer_deterministic
      ⟨[(⟨2, false⟩, ['C']), (⟨1, false⟩, ['A'])],
        [(⟨1, false⟩, ⟨2, false⟩)], [(['p'], [⟨1, false⟩])]⟩
      ⟨[(⟨1, false⟩, ['A']), (⟨2, false⟩, ['C'])],
        [(⟨1, false⟩, ⟨2, false⟩)], [(['p'], [⟨1, false⟩])]⟩
      (List.Perm.swap _ _ _) (List.Perm.refl _) (List.Perm.refl _)
      (by decide) (by decide) (by decide)⟩

end Gfalace
